import Mathlib

/-!
# Verification of the parallel searchable-extraction core
  (`milli/src/update/new/extract/searchable/mod.rs`)

A shallow embedding of the extraction-and-merge core of the indexing
pipeline.  The orchestration file `searchable/mod.rs` is embedded directly;
the helper modules it uses (`CboCachedSorter`, `MergeDeladdCboRoaringBitmaps`,
`AppendOnlyLinkedList`, `ThreadLocal`, `tokenize_document`,
`try_arc_for_each_try_init`, grenad's sorter/merger) are not part of the
given sources, so they are modelled from the specification, with each such
definition marked `Modelled from the spec:` in its doc comment.

Conventions of the embedding:
* document ids and posting keys are natural numbers (keys carry an
  arbitrary linear order abstracting byte-lexicographic order of the
  normalized token bytes);
* roaring bitmaps are `Finset Nat`;
* errors are opaque values (`Err := Nat`); the `Arc` wrapper used for
  cross-thread sharing is identity in a value model;
* the parallel fan-out over worker threads is modelled by an explicit
  partition of the document-change stream: a list of per-worker item lists,
  each worker folding its items sequentially (the rayon scheduler can
  produce any such partition, so theorems quantify over all of them).
-/

/-- Document ids (`u32` / `DocumentId` in the source). -/
abbrev DocId := Nat

/-- Posting keys: a normalized token, or the byte concatenation of a token
pair.  Keys compare by byte-lexicographic order of that representation;
the embedding abstracts the key space together with this order as `Nat`. -/
abbrev Key := Nat

/-- Opaque error values (`Error` in the source; the `Arc<Error>` wrapper is
identity in a value model). -/
abbrev Err := Nat

deriving instance DecidableEq for Except

/-- Modelled from the spec: a `Delta` is an add-set and a remove-set of
document ids (roaring-bitmap-like compressed sets) associated with one key
(the `DelAdd`-keyed obkv value of `MergeDeladdCboRoaringBitmaps`). -/
@[ext]
structure Delta where
  dels : Finset DocId
  adds : Finset DocId
deriving DecidableEq

/-- The delta with empty add and remove sets. -/
def Delta.empty : Delta := ⟨∅, ∅⟩

/-- Record one more removed document id in a delta. -/
def Delta.del_doc (d : Delta) (id : DocId) : Delta := ⟨insert id d.dels, d.adds⟩

/-- Record one more added document id in a delta. -/
def Delta.add_doc (d : Delta) (id : DocId) : Delta := ⟨d.dels, insert id d.adds⟩

/-- Modelled from the spec: the merge function `MergeDeladdCboRoaringBitmaps`
(module `update::del_add`, not among the given sources) combines two deltas
for the same key by unioning their remove-sets and unioning their add-sets. -/
def MergeDeladdCboRoaringBitmaps (a b : Delta) : Delta :=
  ⟨a.dels ∪ b.dels, a.adds ∪ b.adds⟩

/-- Modelled from the spec: resolving a delta into a single bitmap is
union-of-adds-minus-removes; a remove takes precedence over an add for the
same document id. -/
def Delta.resolve (d : Delta) : Finset DocId := d.adds \ d.dels

theorem mergeDeladd_comm (a b : Delta) :
    MergeDeladdCboRoaringBitmaps a b = MergeDeladdCboRoaringBitmaps b a := by
  ext x <;> simp [MergeDeladdCboRoaringBitmaps, Finset.mem_union, or_comm]

theorem mergeDeladd_assoc (a b c : Delta) :
    MergeDeladdCboRoaringBitmaps (MergeDeladdCboRoaringBitmaps a b) c =
      MergeDeladdCboRoaringBitmaps a (MergeDeladdCboRoaringBitmaps b c) := by
  ext x <;> simp [MergeDeladdCboRoaringBitmaps, Finset.mem_union, or_assoc]

theorem mergeDeladd_empty_left (a : Delta) :
    MergeDeladdCboRoaringBitmaps Delta.empty a = a := by
  ext x <;> simp [MergeDeladdCboRoaringBitmaps, Delta.empty]

theorem mergeDeladd_empty_right (a : Delta) :
    MergeDeladdCboRoaringBitmaps a Delta.empty = a := by
  ext x <;> simp [MergeDeladdCboRoaringBitmaps, Delta.empty]

theorem mergeDeladd_left_comm (a b c : Delta) :
    MergeDeladdCboRoaringBitmaps a (MergeDeladdCboRoaringBitmaps b c) =
      MergeDeladdCboRoaringBitmaps b (MergeDeladdCboRoaringBitmaps a c) := by
  rw [← mergeDeladd_assoc, mergeDeladd_comm a b, mergeDeladd_assoc]

/-! ## Sorted key→delta association lists (spill runs and in-memory maps) -/

/-- Sorted runs and in-memory maps are association lists from keys to
deltas; strict sortedness by key is the well-formedness invariant. -/
abbrev Run := List (Key × Delta)

/-- Strict ascending order on the keys of two entries. -/
def keyLt (a b : Key × Delta) : Prop := a.1 < b.1

instance : DecidableRel keyLt := fun a b => Nat.decLt a.1 b.1

/-- Modelled from the spec: insertion into the cache's in-memory sorted map.
The entry for `k` is updated by `f` (starting from the empty delta when `k`
is absent); key uniqueness and sortedness are preserved. -/
def insertWith (k : Key) (f : Delta → Delta) : Run → Run
  | [] => [(k, f Delta.empty)]
  | (k', d) :: rest =>
    if k < k' then (k, f Delta.empty) :: (k', d) :: rest
    else if k = k' then (k', f d) :: rest
    else (k', d) :: insertWith k f rest

theorem insertWith_key_mem {k : Key} {f : Delta → Delta} {l : Run} :
    ∀ x ∈ insertWith k f l, x.1 = k ∨ ∃ y ∈ l, x.1 = y.1 := by
  induction l with
  | nil =>
    intro x hx
    simp [insertWith] at hx
    simp [hx]
  | cons hd tl ih =>
    obtain ⟨k', d⟩ := hd
    intro x hx
    simp only [insertWith] at hx
    split at hx
    · rcases List.mem_cons.1 hx with h | h
      · simp [h]
      · exact Or.inr ⟨x, h, rfl⟩
    · split at hx
      · rcases List.mem_cons.1 hx with h | h
        · subst h; exact Or.inr ⟨(k', d), List.mem_cons_self _ _, rfl⟩
        · exact Or.inr ⟨x, List.mem_cons_of_mem _ h, rfl⟩
      · rcases List.mem_cons.1 hx with h | h
        · subst h; exact Or.inr ⟨(k', d), List.mem_cons_self _ _, rfl⟩
        · rcases ih x h with h' | ⟨y, hy, hxy⟩
          · exact Or.inl h'
          · exact Or.inr ⟨y, List.mem_cons_of_mem _ hy, hxy⟩

theorem insertWith_sorted {k : Key} {f : Delta → Delta} {l : Run}
    (h : l.Pairwise keyLt) : (insertWith k f l).Pairwise keyLt := by
  induction l with
  | nil => simp [insertWith, List.Pairwise]
  | cons hd tl ih =>
    obtain ⟨k', d⟩ := hd
    rw [List.pairwise_cons] at h
    obtain ⟨hhd, htl⟩ := h
    simp only [insertWith]
    split
    next hlt =>
      refine List.Pairwise.cons ?_ (List.Pairwise.cons hhd htl)
      intro y hy
      rcases List.mem_cons.1 hy with h | h
      · subst h; exact hlt
      · exact lt_trans hlt (hhd y h)
    next hnlt =>
      split
      next => exact List.Pairwise.cons hhd htl
      next hne =>
        refine List.Pairwise.cons ?_ (ih htl)
        intro y hy
        rcases insertWith_key_mem y hy with h | ⟨z, hz, hyz⟩
        · have : k' < k := Nat.lt_of_le_of_ne (Nat.not_lt.mp hnlt) fun h' => hne h'.symm
          simpa [keyLt, h] using this
        · have := hhd z hz
          simpa [keyLt, hyz] using this

/-! ## Total delta accumulated for one key -/

/-- The total delta accumulated for key `k` in a list of entries: all
entries whose key is `k`, combined with `MergeDeladdCboRoaringBitmaps`. -/
def deltaAt (l : Run) (k : Key) : Delta :=
  (l.filter (fun e => e.1 = k)).foldr
    (fun e acc => MergeDeladdCboRoaringBitmaps e.2 acc) Delta.empty

theorem deltaAt_nil (k : Key) : deltaAt [] k = Delta.empty := rfl

theorem deltaAt_cons (k' : Key) (d : Delta) (l : Run) (k : Key) :
    deltaAt ((k', d) :: l) k =
      if k' = k then MergeDeladdCboRoaringBitmaps d (deltaAt l k)
      else deltaAt l k := by
  by_cases h : k' = k <;> simp [deltaAt, List.filter_cons, h]

theorem foldr_mergeDeladd_init (l : Run) (d : Delta) :
    l.foldr (fun e acc => MergeDeladdCboRoaringBitmaps e.2 acc) d =
      MergeDeladdCboRoaringBitmaps
        (l.foldr (fun e acc => MergeDeladdCboRoaringBitmaps e.2 acc) Delta.empty) d := by
  induction l with
  | nil => simp [mergeDeladd_empty_left]
  | cons e l ih => simp [List.foldr_cons, ih, mergeDeladd_assoc]

theorem deltaAt_append (l₁ l₂ : Run) (k : Key) :
    deltaAt (l₁ ++ l₂) k =
      MergeDeladdCboRoaringBitmaps (deltaAt l₁ k) (deltaAt l₂ k) := by
  induction l₁ with
  | nil => simp [deltaAt_nil, mergeDeladd_empty_left]
  | cons e l ih =>
    obtain ⟨k', d⟩ := e
    by_cases h : k' = k <;>
      simp [List.cons_append, deltaAt_cons, h, ih, mergeDeladd_assoc]

/-! ## The streaming merge

Modelled from the spec: grenad's `Merger` (built in the `merger_building`
block, lines 107–126 of `searchable/mod.rs`) performs a streaming k-way
merge of sorted runs, combining the values of equal keys with the
configured merge function (`MergeDeladdCboRoaringBitmaps`).  The k-way
merge is embedded as the fold of a binary sorted merge, which produces the
same sorted, per-key-combined output. -/

/-- Binary merge of two runs sorted by key, combining entries with equal
keys with `MergeDeladdCboRoaringBitmaps`. -/
def mergeRuns : Run → Run → Run
  | [], ys => ys
  | xs, [] => xs
  | (k₁, d₁) :: xs, (k₂, d₂) :: ys =>
    if k₁ < k₂ then (k₁, d₁) :: mergeRuns xs ((k₂, d₂) :: ys)
    else if k₂ < k₁ then (k₂, d₂) :: mergeRuns ((k₁, d₁) :: xs) ys
    else (k₁, MergeDeladdCboRoaringBitmaps d₁ d₂) :: mergeRuns xs ys
termination_by xs ys => xs.length + ys.length

theorem mergeRuns_nil_left (ys : Run) : mergeRuns [] ys = ys := by
  cases ys <;> simp [mergeRuns]

theorem mergeRuns_nil_right (xs : Run) : mergeRuns xs [] = xs := by
  cases xs <;> simp [mergeRuns]

theorem mergeRuns_key_mem :
    ∀ (xs ys : Run), ∀ z ∈ mergeRuns xs ys,
      (∃ x ∈ xs, z.1 = x.1) ∨ ∃ y ∈ ys, z.1 = y.1
  | [], ys => by
    intro z hz
    rw [mergeRuns_nil_left] at hz
    exact Or.inr ⟨z, hz, rfl⟩
  | (k₁, d₁) :: xs, [] => by
    intro z hz
    rw [mergeRuns_nil_right] at hz
    exact Or.inl ⟨z, hz, rfl⟩
  | (k₁, d₁) :: xs, (k₂, d₂) :: ys => by
    intro z hz
    simp only [mergeRuns] at hz
    split at hz
    · rcases List.mem_cons.1 hz with h | h
      · subst h; exact Or.inl ⟨(k₁, d₁), List.mem_cons_self _ _, rfl⟩
      · rcases mergeRuns_key_mem xs ((k₂, d₂) :: ys) z h with ⟨x, hx, hzx⟩ | ⟨y, hy, hzy⟩
        · exact Or.inl ⟨x, List.mem_cons_of_mem _ hx, hzx⟩
        · exact Or.inr ⟨y, hy, hzy⟩
    · split at hz
      · rcases List.mem_cons.1 hz with h | h
        · subst h; exact Or.inr ⟨(k₂, d₂), List.mem_cons_self _ _, rfl⟩
        · rcases mergeRuns_key_mem ((k₁, d₁) :: xs) ys z h with ⟨x, hx, hzx⟩ | ⟨y, hy, hzy⟩
          · exact Or.inl ⟨x, hx, hzx⟩
          · exact Or.inr ⟨y, List.mem_cons_of_mem _ hy, hzy⟩
      · rcases List.mem_cons.1 hz with h | h
        · subst h; exact Or.inl ⟨(k₁, d₁), List.mem_cons_self _ _, rfl⟩
        · rcases mergeRuns_key_mem xs ys z h with ⟨x, hx, hzx⟩ | ⟨y, hy, hzy⟩
          · exact Or.inl ⟨x, List.mem_cons_of_mem _ hx, hzx⟩
          · exact Or.inr ⟨y, List.mem_cons_of_mem _ hy, hzy⟩
termination_by xs ys => xs.length + ys.length

theorem mergeRuns_sorted :
    ∀ {xs ys : Run}, xs.Pairwise keyLt → ys.Pairwise keyLt →
      (mergeRuns xs ys).Pairwise keyLt
  | [], ys => fun _ hy => by rw [mergeRuns_nil_left]; exact hy
  | (k₁, d₁) :: xs, [] => fun hx _ => by rw [mergeRuns_nil_right]; exact hx
  | (k₁, d₁) :: xs, (k₂, d₂) :: ys => fun hx hy => by
    rw [List.pairwise_cons] at hx hy
    obtain ⟨hx₁, hxs⟩ := hx
    obtain ⟨hy₁, hys⟩ := hy
    simp only [mergeRuns]
    split
    next hlt =>
      refine List.Pairwise.cons ?_
        (mergeRuns_sorted hxs (List.Pairwise.cons hy₁ hys))
      intro z hz
      rcases mergeRuns_key_mem _ _ z hz with ⟨x, hxm, hzx⟩ | ⟨y, hym, hzy⟩
      · have := hx₁ x hxm; simpa [keyLt, hzx] using this
      · rcases List.mem_cons.1 hym with h | h
        · subst h; simpa [keyLt, hzy] using hlt
        · have := hy₁ y h
          simp only [keyLt] at this ⊢
          rw [hzy]; exact lt_trans hlt this
    next hnlt =>
      split
      next hlt' =>
        refine List.Pairwise.cons ?_
          (mergeRuns_sorted (List.Pairwise.cons hx₁ hxs) hys)
        intro z hz
        rcases mergeRuns_key_mem _ _ z hz with ⟨x, hxm, hzx⟩ | ⟨y, hym, hzy⟩
        · rcases List.mem_cons.1 hxm with h | h
          · subst h; simpa [keyLt, hzx] using hlt'
          · have := hx₁ x h
            simp only [keyLt] at this ⊢
            rw [hzx]; exact lt_trans hlt' this
        · have := hy₁ y hym; simpa [keyLt, hzy] using this
      next hnlt' =>
        have hkeq : k₁ = k₂ := Nat.le_antisymm (Nat.not_lt.mp hnlt') (Nat.not_lt.mp hnlt)
        refine List.Pairwise.cons ?_ (mergeRuns_sorted hxs hys)
        intro z hz
        rcases mergeRuns_key_mem _ _ z hz with ⟨x, hxm, hzx⟩ | ⟨y, hym, hzy⟩
        · have := hx₁ x hxm; simpa [keyLt, hzx] using this
        · have := hy₁ y hym
          simp only [keyLt] at this ⊢
          rw [hzy, hkeq]; exact this
termination_by xs ys => xs.length + ys.length

theorem mergeRuns_deltaAt :
    ∀ (xs ys : Run) (k : Key),
      deltaAt (mergeRuns xs ys) k =
        MergeDeladdCboRoaringBitmaps (deltaAt xs k) (deltaAt ys k)
  | [], ys, k => by
    rw [mergeRuns_nil_left, deltaAt_nil, mergeDeladd_empty_left]
  | (k₁, d₁) :: xs, [], k => by
    rw [mergeRuns_nil_right, deltaAt_nil, mergeDeladd_empty_right]
  | (k₁, d₁) :: xs, (k₂, d₂) :: ys, k => by
    simp only [mergeRuns]
    split
    next hlt =>
      simp only [deltaAt_cons, mergeRuns_deltaAt xs ((k₂, d₂) :: ys) k]
      by_cases h₁ : k₁ = k <;> by_cases h₂ : k₂ = k <;>
        simp [h₁, h₂, deltaAt_cons, mergeDeladd_assoc, mergeDeladd_left_comm,
          mergeDeladd_comm]
    next hnlt =>
      split
      next hlt' =>
        simp only [deltaAt_cons, mergeRuns_deltaAt ((k₁, d₁) :: xs) ys k]
        by_cases h₁ : k₁ = k <;> by_cases h₂ : k₂ = k <;>
          simp [h₁, h₂, deltaAt_cons, mergeDeladd_assoc, mergeDeladd_left_comm,
            mergeDeladd_comm]
      next hnlt' =>
        have hkeq : k₁ = k₂ := Nat.le_antisymm (Nat.not_lt.mp hnlt') (Nat.not_lt.mp hnlt)
        subst hkeq
        simp only [deltaAt_cons, mergeRuns_deltaAt xs ys k]
        by_cases h₁ : k₁ = k <;>
          simp [h₁, deltaAt_cons, mergeDeladd_assoc, mergeDeladd_left_comm,
            mergeDeladd_comm]
termination_by xs ys _k => xs.length + ys.length

/-- The k-way merge: all runs merged into one sorted, per-key-combined run
(the `builder.build()` of the `merger_building` block). -/
def mergeAll (runs : List Run) : Run := runs.foldl mergeRuns []

theorem mergeAll_sorted {runs : List Run}
    (h : ∀ r ∈ runs, r.Pairwise keyLt) : (mergeAll runs).Pairwise keyLt := by
  suffices h' : ∀ acc : Run, acc.Pairwise keyLt →
      (runs.foldl mergeRuns acc).Pairwise keyLt from h' [] (by simp)
  induction runs with
  | nil => intro acc hacc; simpa using hacc
  | cons r rs ih =>
    intro acc hacc
    simp only [List.foldl_cons]
    exact ih (fun x hx => h x (List.mem_cons_of_mem _ hx)) _
      (mergeRuns_sorted hacc (h r (List.mem_cons_self _ _)))

theorem mergeAll_deltaAt (runs : List Run) (k : Key) :
    deltaAt (mergeAll runs) k = deltaAt runs.flatten k := by
  suffices h' : ∀ acc : Run, deltaAt (runs.foldl mergeRuns acc) k =
      MergeDeladdCboRoaringBitmaps (deltaAt acc k) (deltaAt runs.flatten k) by
    rw [mergeAll, h' [], deltaAt_nil, mergeDeladd_empty_left]
  induction runs with
  | nil =>
    intro acc
    simp [deltaAt_nil, mergeDeladd_empty_right]
  | cons r rs ih =>
    intro acc
    simp only [List.foldl_cons, List.flatten_cons, deltaAt_append]
    rw [ih, mergeRuns_deltaAt, mergeDeladd_assoc]

/-! ## The external sorter and the per-worker cache -/

/-- grenad's sort algorithm selector (`grenad::SortAlgorithm`). -/
inductive SortAlgorithm
  | Stable
  | Unstable
deriving DecidableEq

/-- Modelled from the spec: the indexer parameters (`GrenadParameters`)
supplied from outside: chunk compression type and level, maximum chunk
count, and the total memory budget. -/
structure GrenadParameters where
  chunk_compression_type : Nat
  chunk_compression_level : Option Nat
  max_nb_chunks : Option Nat
  max_memory : Option Nat
deriving DecidableEq

/-- Modelled from the spec: `GrenadParameters::max_memory_by_thread` returns
the maximum memory budget granted to one worker thread (derived from the
total budget; the derivation itself is not among the given sources). -/
def GrenadParameters.max_memory_by_thread (p : GrenadParameters) : Option Nat :=
  p.max_memory

/-- Modelled from the spec: the configuration captured by `create_sorter`
for the cache's external sorter — sort algorithm, compression, chunk
limits, and memory cap (the merge function is always
`MergeDeladdCboRoaringBitmaps` here and is part of the merge model). -/
structure SorterConfig where
  sort_algorithm : SortAlgorithm
  chunk_compression_type : Nat
  chunk_compression_level : Option Nat
  max_nb_chunks : Option Nat
  max_memory : Option Nat
deriving DecidableEq

/-- Modelled from the spec: `create_sorter` builds the external sorter from
the supplied configuration. -/
def create_sorter (alg : SortAlgorithm) (chunk_compression_type : Nat)
    (chunk_compression_level : Option Nat) (max_nb_chunks : Option Nat)
    (max_memory : Option Nat) : SorterConfig :=
  ⟨alg, chunk_compression_type, chunk_compression_level, max_nb_chunks, max_memory⟩

/-- Modelled from the spec: the per-worker `CboCachedSorter`: an in-memory
sorted map from posting key to accumulating delta, bounded by an entry
budget; on exceeding the budget the in-memory contents are spilled, in key
order, as one run of the external sorter, and accumulation restarts in a
fresh map. -/
structure CboCachedSorter where
  budget : Nat
  sorter : SorterConfig
  spilled : List Run
  in_memory : Run
deriving DecidableEq

/-- `CboCachedSorter::new` (line 74 of `searchable/mod.rs`): a fresh cache
with the given entry budget and sorter configuration. -/
def CboCachedSorter.new (budget : Nat) (sorter : SorterConfig) : CboCachedSorter :=
  ⟨budget, sorter, [], []⟩

/-- Modelled from the spec: spill the in-memory map to the external sorter
when the entry budget is exceeded. -/
def CboCachedSorter.spill_if_full (c : CboCachedSorter) : CboCachedSorter :=
  if c.budget ≤ c.in_memory.length then
    { c with spilled := c.spilled ++ [c.in_memory], in_memory := [] }
  else c

/-- Modelled from the spec: `insert_add` records `id` in the add-set of the
delta for `k`, spilling first-in in-memory contents if the budget is
exceeded. -/
def CboCachedSorter.insert_add (c : CboCachedSorter) (k : Key) (id : DocId) :
    CboCachedSorter :=
  CboCachedSorter.spill_if_full
    { c with in_memory := insertWith k (Delta.add_doc · id) c.in_memory }

/-- Modelled from the spec: `insert_del` records `id` in the remove-set of
the delta for `k`. -/
def CboCachedSorter.insert_del (c : CboCachedSorter) (k : Key) (id : DocId) :
    CboCachedSorter :=
  CboCachedSorter.spill_if_full
    { c with in_memory := insertWith k (Delta.del_doc · id) c.in_memory }

/-- Modelled from the spec: `into_sorter` / `into_reader_cursors`
(lines 117–118): flush the remaining in-memory entries and expose all
runs — the spilled ones followed by the final flush — as sorted cursors. -/
def CboCachedSorter.into_sorter (c : CboCachedSorter) : List Run :=
  c.spilled ++ [c.in_memory]

/-- Well-formedness of a cache: every spilled run and the in-memory map are
strictly sorted by key. -/
def CacheWF (c : CboCachedSorter) : Prop :=
  (∀ r ∈ c.spilled, r.Pairwise keyLt) ∧ c.in_memory.Pairwise keyLt

theorem cacheWF_new (budget : Nat) (s : SorterConfig) :
    CacheWF (CboCachedSorter.new budget s) := by
  constructor <;> simp [CboCachedSorter.new]

theorem cacheWF_spill_if_full {c : CboCachedSorter} (h : CacheWF c) :
    CacheWF c.spill_if_full := by
  obtain ⟨hs, hm⟩ := h
  unfold CboCachedSorter.spill_if_full
  split
  · refine ⟨?_, by simp⟩
    intro r hr
    rcases List.mem_append.1 hr with h | h
    · exact hs r h
    · rw [List.mem_singleton.1 h]; exact hm
  · exact ⟨hs, hm⟩

theorem cacheWF_insert_add {c : CboCachedSorter} (h : CacheWF c) (k : Key)
    (id : DocId) : CacheWF (c.insert_add k id) :=
  cacheWF_spill_if_full ⟨h.1, insertWith_sorted h.2⟩

theorem cacheWF_insert_del {c : CboCachedSorter} (h : CacheWF c) (k : Key)
    (id : DocId) : CacheWF (c.insert_del k id) :=
  cacheWF_spill_if_full ⟨h.1, insertWith_sorted h.2⟩

/-- The total delta accumulated in a cache for key `k`, across all spilled
runs and the in-memory map. -/
def cacheDelta (c : CboCachedSorter) (k : Key) : Delta :=
  deltaAt c.into_sorter.flatten k

theorem cacheDelta_spill_if_full (c : CboCachedSorter) (k : Key) :
    cacheDelta c.spill_if_full k = cacheDelta c k := by
  unfold CboCachedSorter.spill_if_full
  split
  · simp [cacheDelta, CboCachedSorter.into_sorter]
  · rfl

theorem cacheDelta_new (budget : Nat) (s : SorterConfig) (k : Key) :
    cacheDelta (CboCachedSorter.new budget s) k = Delta.empty := by
  simp [cacheDelta, CboCachedSorter.new, CboCachedSorter.into_sorter, deltaAt_nil]

theorem deltaAt_eq_empty {l : Run} {k : Key} (h : ∀ e ∈ l, e.1 ≠ k) :
    deltaAt l k = Delta.empty := by
  induction l with
  | nil => rfl
  | cons e rest ih =>
    obtain ⟨k₀, d₀⟩ := e
    rw [deltaAt_cons, if_neg (h (k₀, d₀) (List.mem_cons_self _ _)),
      ih fun e he => h e (List.mem_cons_of_mem _ he)]

theorem mergeDeladd_add_doc_left (a b : Delta) (id : DocId) :
    MergeDeladdCboRoaringBitmaps (a.add_doc id) b =
      (MergeDeladdCboRoaringBitmaps a b).add_doc id := by
  ext x <;>
    simp [MergeDeladdCboRoaringBitmaps, Delta.add_doc, Finset.mem_insert,
      Finset.mem_union, or_assoc]

theorem mergeDeladd_add_doc_right (a b : Delta) (id : DocId) :
    MergeDeladdCboRoaringBitmaps a (b.add_doc id) =
      (MergeDeladdCboRoaringBitmaps a b).add_doc id := by
  rw [mergeDeladd_comm, mergeDeladd_add_doc_left, mergeDeladd_comm]

theorem mergeDeladd_del_doc_left (a b : Delta) (id : DocId) :
    MergeDeladdCboRoaringBitmaps (a.del_doc id) b =
      (MergeDeladdCboRoaringBitmaps a b).del_doc id := by
  ext x <;>
    simp [MergeDeladdCboRoaringBitmaps, Delta.del_doc, Finset.mem_insert,
      Finset.mem_union, or_assoc]

theorem mergeDeladd_del_doc_right (a b : Delta) (id : DocId) :
    MergeDeladdCboRoaringBitmaps a (b.del_doc id) =
      (MergeDeladdCboRoaringBitmaps a b).del_doc id := by
  rw [mergeDeladd_comm, mergeDeladd_del_doc_left, mergeDeladd_comm]

/-- Effect of `insertWith` on the per-key total, when the list has strictly
sorted (hence unique) keys and `f` commutes with the combine on the left. -/
theorem deltaAt_insertWith {f : Delta → Delta}
    (hf : ∀ d d', MergeDeladdCboRoaringBitmaps (f d) d' =
      f (MergeDeladdCboRoaringBitmaps d d')) :
    ∀ {l : Run}, l.Pairwise keyLt → ∀ (k k' : Key),
      deltaAt (insertWith k f l) k' =
        if k = k' then f (deltaAt l k') else deltaAt l k' := by
  intro l
  induction l with
  | nil =>
    intro _ k k'
    by_cases h : k = k'
    · subst h
      simp only [insertWith, deltaAt_cons, deltaAt_nil, if_pos rfl]
      rw [hf, mergeDeladd_empty_right]
    · simp only [insertWith, deltaAt_cons, deltaAt_nil, if_neg h]
  | cons e rest ih =>
    obtain ⟨k₀, d₀⟩ := e
    intro hsorted k k'
    rw [List.pairwise_cons] at hsorted
    obtain ⟨hhd, htl⟩ := hsorted
    simp only [insertWith]
    split
    next hlt =>
      have hk₀ : k₀ ≠ k := ne_of_gt hlt
      simp only [deltaAt_cons]
      by_cases h : k = k'
      · subst h
        have hrest : deltaAt rest k = Delta.empty :=
          deltaAt_eq_empty fun e he => ne_of_gt (lt_trans hlt (hhd e he))
        simp [if_neg hk₀, hrest, hf, mergeDeladd_empty_right]
      · simp only [if_neg h]
    next hnlt =>
      split
      next heq =>
        subst heq
        simp only [deltaAt_cons]
        by_cases h : k = k'
        · subst h
          simp [hf]
        · simp only [if_neg h]
      next hne =>
        simp only [deltaAt_cons, ih htl k k']
        by_cases h : k = k'
        · by_cases h₀ : k₀ = k'
          · exact absurd (h.trans h₀.symm) hne
          · simp [h, h₀]
        · by_cases h₀ : k₀ = k' <;> simp [h, h₀]

theorem cacheDelta_split (c : CboCachedSorter) (k : Key) :
    cacheDelta c k =
      MergeDeladdCboRoaringBitmaps (deltaAt c.spilled.flatten k)
        (deltaAt c.in_memory k) := by
  simp [cacheDelta, CboCachedSorter.into_sorter, deltaAt_append]

theorem cacheDelta_insert_add {c : CboCachedSorter} (h : CacheWF c)
    (k : Key) (id : DocId) (k' : Key) :
    cacheDelta (c.insert_add k id) k' =
      if k = k' then (cacheDelta c k').add_doc id else cacheDelta c k' := by
  rw [CboCachedSorter.insert_add, cacheDelta_spill_if_full, cacheDelta_split,
    cacheDelta_split]
  simp only
  rw [deltaAt_insertWith (fun d d' => by rw [mergeDeladd_add_doc_left]) h.2 k k']
  by_cases hk : k = k'
  · rw [if_pos hk, if_pos hk, mergeDeladd_add_doc_right]
  · rw [if_neg hk, if_neg hk]

theorem cacheDelta_insert_del {c : CboCachedSorter} (h : CacheWF c)
    (k : Key) (id : DocId) (k' : Key) :
    cacheDelta (c.insert_del k id) k' =
      if k = k' then (cacheDelta c k').del_doc id else cacheDelta c k' := by
  rw [CboCachedSorter.insert_del, cacheDelta_spill_if_full, cacheDelta_split,
    cacheDelta_split]
  simp only
  rw [deltaAt_insertWith (fun d d' => by rw [mergeDeladd_del_doc_left]) h.2 k k']
  by_cases hk : k = k'
  · rw [if_pos hk, if_pos hk, mergeDeladd_del_doc_right]
  · rw [if_neg hk, if_neg hk]

/-! ## Posting writes and document changes -/

/-- Modelled from the spec: a single posting write emitted by an extraction
strategy — an add-delta or a remove-delta for one key and one document id. -/
inductive PostingWrite
  | addW (k : Key) (id : DocId)
  | delW (k : Key) (id : DocId)
deriving DecidableEq

/-- Apply one posting write to the worker's cache. -/
def CboCachedSorter.apply_write (c : CboCachedSorter) : PostingWrite → CboCachedSorter
  | .addW k id => c.insert_add k id
  | .delW k id => c.insert_del k id

/-- Apply a sequence of posting writes, in order, to the worker's cache. -/
def CboCachedSorter.apply_writes (c : CboCachedSorter) (ws : List PostingWrite) :
    CboCachedSorter :=
  ws.foldl CboCachedSorter.apply_write c

theorem cacheWF_apply_write {c : CboCachedSorter} (h : CacheWF c)
    (w : PostingWrite) : CacheWF (c.apply_write w) := by
  cases w with
  | addW k id => exact cacheWF_insert_add h k id
  | delW k id => exact cacheWF_insert_del h k id

theorem cacheWF_apply_writes {c : CboCachedSorter} (h : CacheWF c)
    (ws : List PostingWrite) : CacheWF (c.apply_writes ws) := by
  induction ws generalizing c with
  | nil => exact h
  | cons w ws ih => exact ih (cacheWF_apply_write h w)

/-- The delta that a sequence of posting writes contributes at key `k`. -/
def writesDelta (ws : List PostingWrite) (k : Key) : Delta :=
  ws.foldr
    (fun w acc =>
      match w with
      | .addW k' id => if k' = k then acc.add_doc id else acc
      | .delW k' id => if k' = k then acc.del_doc id else acc)
    Delta.empty

theorem writesDelta_nil (k : Key) : writesDelta [] k = Delta.empty := rfl

theorem writesDelta_cons_add (k' : Key) (id : DocId) (ws : List PostingWrite)
    (k : Key) :
    writesDelta (.addW k' id :: ws) k =
      if k' = k then (writesDelta ws k).add_doc id else writesDelta ws k := rfl

theorem writesDelta_cons_del (k' : Key) (id : DocId) (ws : List PostingWrite)
    (k : Key) :
    writesDelta (.delW k' id :: ws) k =
      if k' = k then (writesDelta ws k).del_doc id else writesDelta ws k := rfl

theorem cacheDelta_apply_writes {c : CboCachedSorter} (h : CacheWF c)
    (ws : List PostingWrite) (k : Key) :
    cacheDelta (c.apply_writes ws) k =
      MergeDeladdCboRoaringBitmaps (writesDelta ws k) (cacheDelta c k) := by
  induction ws generalizing c with
  | nil =>
    simp [CboCachedSorter.apply_writes, writesDelta_nil, mergeDeladd_empty_left]
  | cons w ws ih =>
    have step : cacheDelta (c.apply_writes (w :: ws)) k =
        cacheDelta ((c.apply_write w).apply_writes ws) k := rfl
    rw [step, ih (cacheWF_apply_write h w)]
    cases w with
    | addW k' id =>
      rw [writesDelta_cons_add]
      simp only [CboCachedSorter.apply_write]
      rw [cacheDelta_insert_add h k' id k]
      by_cases hk : k' = k
      · rw [if_pos hk, if_pos hk, mergeDeladd_add_doc_left, mergeDeladd_add_doc_right]
      · rw [if_neg hk, if_neg hk]
    | delW k' id =>
      rw [writesDelta_cons_del]
      simp only [CboCachedSorter.apply_write]
      rw [cacheDelta_insert_del h k' id k]
      by_cases hk : k' = k
      · rw [if_pos hk, if_pos hk, mergeDeladd_del_doc_left, mergeDeladd_del_doc_right]
      · rw [if_neg hk, if_neg hk]

/-- A document change (`DocumentChange` in `update::new`): an insertion,
update, or deletion, carrying the document id and the posting keys of the
old and/or new field values (the tokenizer — an external collaborator — is
abstracted into these key streams). -/
inductive DocumentChange
  | insertion (docid : DocId) (new_keys : List Key)
  | update (docid : DocId) (old_keys : List Key) (new_keys : List Key)
  | deletion (docid : DocId) (old_keys : List Key)
deriving DecidableEq

/-- The document id carried by a change. -/
def DocumentChange.docid : DocumentChange → DocId
  | .insertion id _ => id
  | .update id _ _ => id
  | .deletion id _ => id

/-- The posting keys of the previous version of the document (empty for an
insertion). -/
def DocumentChange.old_keys : DocumentChange → List Key
  | .insertion _ _ => []
  | .update _ old _ => old
  | .deletion _ old => old

/-- The posting keys of the latest version of the document (empty for a
deletion). -/
def DocumentChange.new_keys : DocumentChange → List Key
  | .insertion _ new => new
  | .update _ _ new => new
  | .deletion _ _ => []

/-- Modelled from the spec: the posting writes of the word-docids strategy
for one document change — a remove-delta for every key of the old version
and an add-delta for every key of the new version, keyed by the normalized
token. -/
def word_docids_writes (c : DocumentChange) : List PostingWrite :=
  (c.old_keys.map fun k => PostingWrite.delW k c.docid) ++
    (c.new_keys.map fun k => PostingWrite.addW k c.docid)

/-- The net delta one change contributes at key `k`: its id removed when
the old version contained `k`, added when the new version contains `k`. -/
def changeDelta (c : DocumentChange) (k : Key) : Delta :=
  ⟨if k ∈ c.old_keys then {c.docid} else ∅, if k ∈ c.new_keys then {c.docid} else ∅⟩

theorem writesDelta_append (a b : List PostingWrite) (k : Key) :
    writesDelta (a ++ b) k =
      MergeDeladdCboRoaringBitmaps (writesDelta a k) (writesDelta b k) := by
  induction a with
  | nil => simp [writesDelta_nil, mergeDeladd_empty_left]
  | cons w ws ih =>
    cases w with
    | addW k' id =>
      rw [List.cons_append, writesDelta_cons_add, writesDelta_cons_add, ih]
      by_cases hk : k' = k
      · rw [if_pos hk, if_pos hk, mergeDeladd_add_doc_left]
      · rw [if_neg hk, if_neg hk]
    | delW k' id =>
      rw [List.cons_append, writesDelta_cons_del, writesDelta_cons_del, ih]
      by_cases hk : k' = k
      · rw [if_pos hk, if_pos hk, mergeDeladd_del_doc_left]
      · rw [if_neg hk, if_neg hk]

theorem writesDelta_map_del (L : List Key) (id : DocId) (k : Key) :
    writesDelta (L.map fun k' => PostingWrite.delW k' id) k =
      ⟨if k ∈ L then {id} else ∅, ∅⟩ := by
  induction L with
  | nil => simp [writesDelta_nil, Delta.empty]
  | cons k₀ rest ih =>
    rw [List.map_cons, writesDelta_cons_del, ih]
    by_cases hk : k₀ = k
    · subst hk
      by_cases hmem : k₀ ∈ rest <;>
        (ext x <;> simp [hmem, Delta.del_doc])
    · simp [hk, List.mem_cons, Ne.symm hk]

theorem writesDelta_map_add (L : List Key) (id : DocId) (k : Key) :
    writesDelta (L.map fun k' => PostingWrite.addW k' id) k =
      ⟨∅, if k ∈ L then {id} else ∅⟩ := by
  induction L with
  | nil => simp [writesDelta_nil, Delta.empty]
  | cons k₀ rest ih =>
    rw [List.map_cons, writesDelta_cons_add, ih]
    by_cases hk : k₀ = k
    · subst hk
      by_cases hmem : k₀ ∈ rest <;>
        (ext x <;> simp [hmem, Delta.add_doc])
    · simp [hk, List.mem_cons, Ne.symm hk]

theorem writesDelta_word_docids (c : DocumentChange) (k : Key) :
    writesDelta (word_docids_writes c) k = changeDelta c k := by
  rw [word_docids_writes, writesDelta_append, writesDelta_map_del,
    writesDelta_map_add]
  ext x <;>
    simp [MergeDeladdCboRoaringBitmaps, changeDelta]

/-! ## The orchestration of `run_extraction` -/

/-- Attribute (field) names, abstracted. -/
abbrev FieldName := Nat

/-- The index handle (`Index`): the extraction core only opens read-only
transactions on it.  The tokenizer-configuration reads (stop words,
separators, dictionary, localized rules) belong to the external tokenizer
collaborator and are folded into the tokenizer model. -/
structure Index where
  read_txn : Except Err Unit

/-- The shared field-name → field-id registry (`GlobalFieldsIdsMap`),
abstracted as an opaque snapshot value; each worker works on its own
clone. -/
abbrev GlobalFieldsIdsMap := Nat

/-- `GlobalFieldsIdsMap::clone`: each worker clones the shared registry. -/
def GlobalFieldsIdsMap.clone (m : GlobalFieldsIdsMap) : GlobalFieldsIdsMap := m

/-- Modelled from the spec: the crate-level constant
`MAX_POSITION_PER_ATTRIBUTE` (defined outside the given sources); the
claims do not depend on its exact value. -/
def MAX_POSITION_PER_ATTRIBUTE : Nat := 65535

/-- The `DocumentTokenizer` bundle built at lines 56–62 of
`searchable/mod.rs`: attribute filters and the maximum-positions-per-
attribute cutoff (the linguistic tokenizer itself is an external
collaborator). -/
structure DocumentTokenizer where
  attribute_to_extract : Option (List FieldName)
  attribute_to_skip : List FieldName
  max_positions_per_attributes : Nat
deriving DecidableEq

/-- Modelled from the spec: tokenizing one field's already-segmented
(position, token) stream honors the maximum-positions-per-attribute
cutoff — positions beyond the cutoff are dropped, not erroring. -/
def DocumentTokenizer.tokenize_field (t : DocumentTokenizer)
    (tokens : List (Nat × Key)) : Except Err (List (Nat × Key)) :=
  Except.ok (tokens.filter fun pt => pt.1 < t.max_positions_per_attributes)

/-- The posting keys produced by a token stream. -/
def tokens_keys (tokens : List (Nat × Key)) : List Key :=
  tokens.map Prod.snd

/-- The `SearchableExtractor` trait: a strategy supplies
`extract_document_change` (the posting writes of one change) and the
attribute filters.  The default method `run_extraction` is the embedded
driver below. -/
structure SearchableExtractor where
  extract_document_change : DocumentChange → Except Err (List PostingWrite)
  attributes_to_extract : Index → Except Err (Option (List FieldName))
  attributes_to_skip : Index → Except Err (List FieldName)

/-- Modelled from the spec: the word-docids strategy
(`WordDocidsExtractors`): every key of the old document version gets a
remove-delta, every key of the new version an add-delta; no attribute
restrictions by default. -/
def WordDocidsExtractors : SearchableExtractor where
  extract_document_change := fun c => Except.ok (word_docids_writes c)
  attributes_to_extract := fun _ => Except.ok none
  attributes_to_skip := fun _ => Except.ok []

/-- The per-thread bundle initialized lazily, once per worker: the worker's
own read transaction (its success recorded by `worker_init` returning
`ok`), the shared tokenizer reference, the field-id map clone, and the
fresh cache (`ThreadLocal::get_or_try`, lines 72–91). -/
structure WorkerBundle where
  document_tokenizer : DocumentTokenizer
  fields_ids_map : GlobalFieldsIdsMap
  cache : CboCachedSorter

/-- First-use initialization of one worker's bundle (lines 72–91): open a
read transaction, clone the field-id map, and create the cache with the
literal 1,000,000-entry budget and the externally supplied sorter
configuration. -/
def worker_init (index : Index) (document_tokenizer : DocumentTokenizer)
    (fields_ids_map : GlobalFieldsIdsMap) (indexer : GrenadParameters) :
    Except Err WorkerBundle :=
  match index.read_txn with
  | .error e => .error e
  | .ok _ =>
    Except.ok
      ⟨document_tokenizer, fields_ids_map.clone,
        CboCachedSorter.new 1000000
          (create_sorter SortAlgorithm.Stable indexer.chunk_compression_type
            indexer.chunk_compression_level indexer.max_nb_chunks
            indexer.max_memory_by_thread)⟩

/-- Modelled from the spec: the per-item loop of
`try_arc_for_each_try_init` (lines 93–104) for one worker's share of the
stream: an error item, or a failing `extract_document_change`, stops that
worker at the first observed error; a successful item's writes go into
the worker's own cache. -/
def process_items (S : SearchableExtractor) (b : WorkerBundle) :
    List (Except Err DocumentChange) → Except Err WorkerBundle
  | [] => Except.ok b
  | .error e :: _ => .error e
  | .ok change :: rest =>
    match S.extract_document_change change with
    | .error e => .error e
    | .ok ws => process_items S { b with cache := b.cache.apply_writes ws } rest

/-- One worker's contribution: no cache when the worker never processes an
item (lazy initialization never runs), otherwise the single lazily
initialized bundle is reused for every item and its cache is registered
(`AppendOnlyLinkedList::push` happens inside first-use initialization). -/
def worker_cache (S : SearchableExtractor) (index : Index)
    (document_tokenizer : DocumentTokenizer)
    (fields_ids_map : GlobalFieldsIdsMap) (indexer : GrenadParameters)
    (items : List (Except Err DocumentChange)) :
    Except Err (Option CboCachedSorter) :=
  if items.isEmpty then Except.ok none
  else
    match worker_init index document_tokenizer fields_ids_map indexer with
    | .error e => .error e
    | .ok b =>
      match process_items S b items with
      | .error e => .error e
      | .ok b' => Except.ok (some b'.cache)

/-- The parallel fan-out (`document_changes.into_par_iter()` driven by
`try_arc_for_each_try_init`): every worker processes its share; the first
observed error becomes the run's error. -/
def workers_caches (S : SearchableExtractor) (index : Index)
    (document_tokenizer : DocumentTokenizer)
    (fields_ids_map : GlobalFieldsIdsMap) (indexer : GrenadParameters) :
    List (List (Except Err DocumentChange)) →
      Except Err (List (Option CboCachedSorter))
  | [] => Except.ok []
  | w :: ws =>
    match worker_cache S index document_tokenizer fields_ids_map indexer w with
    | .error e => .error e
    | .ok c =>
      match workers_caches S index document_tokenizer fields_ids_map indexer ws with
      | .error e => .error e
      | .ok cs => Except.ok (c :: cs)

/-- Collect the reader-cursor conversion results (the `readers : Vec<_>` of
lines 113–120 followed by the `reader?` loop of lines 122–124): all
conversions run, then the first error, in order, is propagated. -/
def collect_readers : List (Except Err (List Run)) → Except Err (List (List Run))
  | [] => Except.ok []
  | .error e :: _ => .error e
  | .ok r :: rest =>
    match collect_readers rest with
    | .error e => .error e
    | .ok rs => Except.ok (r :: rs)

/-- The `merger_building` block (lines 107–126): collect every cache's
reader cursors, extend the merger builder with them, and build the final
streaming merge. -/
def build_merger (readers : List (Except Err (List Run))) : Except Err Run :=
  match collect_readers readers with
  | .error e => .error e
  | .ok rss => Except.ok (mergeAll rss.flatten)

/-- The pure conversion of a cache into its sorted reader cursors
(`into_sorter` + `into_reader_cursors` when no I/O failure occurs). -/
def ok_conv (c : CboCachedSorter) : Except Err (List Run) :=
  Except.ok c.into_sorter

/-- `SearchableExtractor::run_extraction` (lines 26–127): build the
tokenizer configuration, fan the document changes out over the workers,
register every worker's cache, convert each cache into reader cursors
(`conv` receives the I/O outcome of `into_sorter`/`into_reader_cursors`),
and build the merger. -/
def SearchableExtractor.run_extraction (S : SearchableExtractor) (index : Index)
    (fields_ids_map : GlobalFieldsIdsMap) (indexer : GrenadParameters)
    (conv : CboCachedSorter → Except Err (List Run))
    (document_changes : List (List (Except Err DocumentChange))) :
    Except Err Run :=
  match index.read_txn with
  | .error e => .error e
  | .ok _ =>
    match S.attributes_to_extract index with
    | .error e => .error e
    | .ok attributes_to_extract =>
      match S.attributes_to_skip index with
      | .error e => .error e
      | .ok attributes_to_skip =>
        let document_tokenizer : DocumentTokenizer :=
          ⟨attributes_to_extract, attributes_to_skip, MAX_POSITION_PER_ATTRIBUTE⟩
        match workers_caches S index document_tokenizer fields_ids_map indexer
            document_changes with
        | .error e => .error e
        | .ok caches => build_merger ((caches.filterMap id).map conv)

/-- The blanket implementation `impl<T: SearchableExtractor> DocidsExtractor
for T` (lines 144–155): a pure delegation to
`SearchableExtractor::run_extraction`. -/
def DocidsExtractor.run_extraction (S : SearchableExtractor) (index : Index)
    (fields_ids_map : GlobalFieldsIdsMap) (indexer : GrenadParameters)
    (conv : CboCachedSorter → Except Err (List Run))
    (document_changes : List (List (Except Err DocumentChange))) :
    Except Err Run :=
  SearchableExtractor.run_extraction S index fields_ids_map indexer conv document_changes

/-! ## Invariants of the driver -/

theorem apply_write_config (c : CboCachedSorter) (w : PostingWrite) :
    (c.apply_write w).budget = c.budget ∧ (c.apply_write w).sorter = c.sorter := by
  cases w <;>
    simp [CboCachedSorter.apply_write, CboCachedSorter.insert_add,
      CboCachedSorter.insert_del, CboCachedSorter.spill_if_full] <;>
    split <;> simp

theorem apply_writes_config (c : CboCachedSorter) (ws : List PostingWrite) :
    (c.apply_writes ws).budget = c.budget ∧ (c.apply_writes ws).sorter = c.sorter := by
  induction ws generalizing c with
  | nil => exact ⟨rfl, rfl⟩
  | cons w ws ih =>
    have step : c.apply_writes (w :: ws) = (c.apply_write w).apply_writes ws := rfl
    rw [step]
    obtain ⟨h1, h2⟩ := ih (c.apply_write w)
    obtain ⟨h3, h4⟩ := apply_write_config c w
    exact ⟨h1.trans h3, h2.trans h4⟩

theorem process_items_cache {S : SearchableExtractor} {b b' : WorkerBundle}
    {items : List (Except Err DocumentChange)}
    (h : process_items S b items = Except.ok b') :
    b'.cache.budget = b.cache.budget ∧ b'.cache.sorter = b.cache.sorter ∧
      (CacheWF b.cache → CacheWF b'.cache) := by
  induction items generalizing b with
  | nil =>
    simp only [process_items, Except.ok.injEq] at h
    subst h
    exact ⟨rfl, rfl, id⟩
  | cons i rest ih =>
    cases i with
    | error e => exact Except.noConfusion h
    | ok change =>
      simp only [process_items] at h
      cases hx : S.extract_document_change change with
      | error e => rw [hx] at h; exact Except.noConfusion h
      | ok ws =>
        rw [hx] at h
        obtain ⟨h1, h2, h3⟩ := ih h
        obtain ⟨h4, h5⟩ := apply_writes_config b.cache ws
        exact ⟨h1.trans h4, h2.trans h5,
          fun hwf => h3 (cacheWF_apply_writes hwf ws)⟩

theorem worker_cache_spec {S : SearchableExtractor} {index : Index}
    {dt : DocumentTokenizer} {fm : GlobalFieldsIdsMap}
    {indexer : GrenadParameters} {items : List (Except Err DocumentChange)}
    {oc : Option CboCachedSorter}
    (h : worker_cache S index dt fm indexer items = Except.ok oc) :
    (oc.isSome ↔ items ≠ []) ∧
      ∀ c, oc = some c → CacheWF c ∧ c.budget = 1000000 ∧
        c.sorter = create_sorter SortAlgorithm.Stable indexer.chunk_compression_type
          indexer.chunk_compression_level indexer.max_nb_chunks
          indexer.max_memory_by_thread := by
  unfold worker_cache at h
  split at h
  next hempty =>
    simp only [Except.ok.injEq] at h
    subst h
    rw [List.isEmpty_iff] at hempty
    simp [hempty]
  next hempty =>
    rw [List.isEmpty_iff] at hempty
    unfold worker_init at h
    cases htxn : index.read_txn with
    | error e => rw [htxn] at h; exact Except.noConfusion h
    | ok u =>
      rw [htxn] at h
      simp only at h
      cases hp : process_items S
          ⟨dt, fm.clone,
            CboCachedSorter.new 1000000
              (create_sorter SortAlgorithm.Stable indexer.chunk_compression_type
                indexer.chunk_compression_level indexer.max_nb_chunks
                indexer.max_memory_by_thread)⟩ items with
      | error e => rw [hp] at h; exact Except.noConfusion h
      | ok b' =>
        rw [hp] at h
        simp only [Except.ok.injEq] at h
        subst h
        refine ⟨by simp [hempty], ?_⟩
        intro c hc
        rw [Option.some.injEq] at hc
        subst hc
        obtain ⟨h1, h2, h3⟩ := process_items_cache hp
        exact ⟨h3 (cacheWF_new _ _), h1, h2⟩

theorem workers_caches_spec {S : SearchableExtractor} {index : Index}
    {dt : DocumentTokenizer} {fm : GlobalFieldsIdsMap}
    {indexer : GrenadParameters}
    {ws : List (List (Except Err DocumentChange))}
    {caches : List (Option CboCachedSorter)}
    (h : workers_caches S index dt fm indexer ws = Except.ok caches) :
    caches.length = ws.length ∧
      ∀ p ∈ caches.zip ws,
        worker_cache S index dt fm indexer p.2 = Except.ok p.1 := by
  induction ws generalizing caches with
  | nil =>
    simp only [workers_caches, Except.ok.injEq] at h
    subst h
    simp
  | cons w rest ih =>
    simp only [workers_caches] at h
    cases hw : worker_cache S index dt fm indexer w with
    | error e => rw [hw] at h; exact Except.noConfusion h
    | ok c =>
      rw [hw] at h
      cases hr : workers_caches S index dt fm indexer rest with
      | error e => rw [hr] at h; exact Except.noConfusion h
      | ok cs =>
        rw [hr] at h
        simp only [Except.ok.injEq] at h
        subst h
        obtain ⟨hlen, hmem⟩ := ih hr
        refine ⟨by simp [hlen], ?_⟩
        intro p hp
        rcases List.mem_cons.1 hp with hp' | hp'
        · subst hp'; exact hw
        · exact hmem p hp'

theorem collect_readers_map_ok {α : Type} (g : α → List Run) (l : List α) :
    collect_readers (l.map fun c => Except.ok (g c)) = Except.ok (l.map g) := by
  induction l with
  | nil => rfl
  | cons c cs ih => simp [collect_readers, ih]

theorem cacheWF_into_sorter {c : CboCachedSorter} (h : CacheWF c) :
    ∀ r ∈ c.into_sorter, r.Pairwise keyLt := by
  intro r hr
  rcases List.mem_append.1 hr with h' | h'
  · exact h.1 r h'
  · rw [List.mem_singleton.1 h']; exact h.2

/-! ## The net contribution of the change stream -/

/-- The net delta the whole change stream contributes at key `k`. -/
def streamDelta (changes : List DocumentChange) (k : Key) : Delta :=
  changes.foldr
    (fun c acc => MergeDeladdCboRoaringBitmaps (changeDelta c k) acc) Delta.empty

theorem streamDelta_nil (k : Key) : streamDelta [] k = Delta.empty := rfl

theorem streamDelta_cons (c : DocumentChange) (cs : List DocumentChange) (k : Key) :
    streamDelta (c :: cs) k =
      MergeDeladdCboRoaringBitmaps (changeDelta c k) (streamDelta cs k) := rfl

theorem streamDelta_append (a b : List DocumentChange) (k : Key) :
    streamDelta (a ++ b) k =
      MergeDeladdCboRoaringBitmaps (streamDelta a k) (streamDelta b k) := by
  induction a with
  | nil => simp [streamDelta_nil, mergeDeladd_empty_left]
  | cons c cs ih =>
    rw [List.cons_append, streamDelta_cons, streamDelta_cons, ih, mergeDeladd_assoc]

/-- The ids of the changes whose `sel`-side contains key `k`. -/
def containing (sel : DocumentChange → List Key) (changes : List DocumentChange)
    (k : Key) : Finset DocId :=
  changes.foldr (fun c acc => if k ∈ sel c then insert c.docid acc else acc) ∅

/-- The ids whose latest document state contains key `k` (for a stream with
one change per document id). -/
def latestContaining (changes : List DocumentChange) (k : Key) : Finset DocId :=
  containing DocumentChange.new_keys changes k

/-- The ids whose previous document state contained key `k` (for a stream
with one change per document id). -/
def previouslyContaining (changes : List DocumentChange) (k : Key) : Finset DocId :=
  containing DocumentChange.old_keys changes k

theorem containing_cons (sel : DocumentChange → List Key) (c : DocumentChange)
    (cs : List DocumentChange) (k : Key) :
    containing sel (c :: cs) k =
      if k ∈ sel c then insert c.docid (containing sel cs k)
      else containing sel cs k := rfl

theorem streamDelta_eq_containing (changes : List DocumentChange) (k : Key) :
    streamDelta changes k =
      ⟨previouslyContaining changes k, latestContaining changes k⟩ := by
  induction changes with
  | nil => rfl
  | cons c cs ih =>
    rw [streamDelta_cons, ih]
    unfold latestContaining previouslyContaining
    rw [containing_cons, containing_cons]
    by_cases h₁ : k ∈ c.old_keys <;> by_cases h₂ : k ∈ c.new_keys <;>
      (ext x <;> simp [MergeDeladdCboRoaringBitmaps, changeDelta, h₁, h₂])

theorem containing_perm (sel : DocumentChange → List Key)
    {c₁ c₂ : List DocumentChange} (h : c₁.Perm c₂) (k : Key) :
    containing sel c₁ k = containing sel c₂ k := by
  induction h with
  | nil => rfl
  | cons x _ ih => rw [containing_cons, containing_cons, ih]
  | swap x y l =>
    rw [containing_cons, containing_cons, containing_cons, containing_cons]
    by_cases hx : k ∈ sel x <;> by_cases hy : k ∈ sel y <;>
      simp [hx, hy, Finset.Insert.comm]
  | trans _ _ ih₁ ih₂ => exact ih₁.trans ih₂

/-! ## The word-docids strategy through the driver -/

theorem process_items_wordDocids (b : WorkerBundle)
    (changes : List DocumentChange) (hwf : CacheWF b.cache) :
    ∃ b', process_items WordDocidsExtractors b (changes.map Except.ok) =
        Except.ok b' ∧ CacheWF b'.cache ∧
      ∀ k, cacheDelta b'.cache k =
        MergeDeladdCboRoaringBitmaps (streamDelta changes k)
          (cacheDelta b.cache k) := by
  induction changes generalizing b with
  | nil =>
    refine ⟨b, rfl, hwf, fun k => ?_⟩
    rw [streamDelta_nil, mergeDeladd_empty_left]
  | cons c cs ih =>
    have hstep : process_items WordDocidsExtractors b
        ((c :: cs).map Except.ok) =
        process_items WordDocidsExtractors
          { b with cache := b.cache.apply_writes (word_docids_writes c) }
          (cs.map Except.ok) := rfl
    obtain ⟨b', hok, hwf', hdelta⟩ :=
      ih { b with cache := b.cache.apply_writes (word_docids_writes c) }
        (cacheWF_apply_writes hwf _)
    refine ⟨b', hstep.trans hok, hwf', fun k => ?_⟩
    rw [hdelta k]
    simp only
    rw [cacheDelta_apply_writes hwf _ k, writesDelta_word_docids,
      streamDelta_cons, mergeDeladd_assoc, mergeDeladd_left_comm]

/-- The delta contributed by one registered (optional) cache. -/
def ocDelta (oc : Option CboCachedSorter) (k : Key) : Delta :=
  match oc with
  | none => Delta.empty
  | some c => cacheDelta c k

theorem worker_cache_wordDocids (index : Index) (dt : DocumentTokenizer)
    (fm : GlobalFieldsIdsMap) (indexer : GrenadParameters)
    (changes : List DocumentChange) (htxn : index.read_txn = Except.ok ()) :
    ∃ oc, worker_cache WordDocidsExtractors index dt fm indexer
        (changes.map Except.ok) = Except.ok oc ∧
      ∀ k, ocDelta oc k = streamDelta changes k := by
  cases changes with
  | nil => exact ⟨none, rfl, fun k => (streamDelta_nil k).symm⟩
  | cons c cs =>
    obtain ⟨b', hok, _hwf, hdelta⟩ :=
      process_items_wordDocids
        ⟨dt, fm.clone,
          CboCachedSorter.new 1000000
            (create_sorter SortAlgorithm.Stable indexer.chunk_compression_type
              indexer.chunk_compression_level indexer.max_nb_chunks
              indexer.max_memory_by_thread)⟩
        (c :: cs) (cacheWF_new _ _)
    refine ⟨some b'.cache, ?_, fun k => ?_⟩
    · unfold worker_cache
      rw [if_neg (by simp)]
      unfold worker_init
      rw [htxn]
      simp only
      rw [hok]
    · rw [ocDelta, hdelta k, cacheDelta_new, mergeDeladd_empty_right]

theorem workers_caches_wordDocids (index : Index) (dt : DocumentTokenizer)
    (fm : GlobalFieldsIdsMap) (indexer : GrenadParameters)
    (workers : List (List DocumentChange)) (htxn : index.read_txn = Except.ok ()) :
    ∃ caches, workers_caches WordDocidsExtractors index dt fm indexer
        (workers.map (List.map Except.ok)) = Except.ok caches ∧
      ∀ k, caches.foldr
          (fun oc acc => MergeDeladdCboRoaringBitmaps (ocDelta oc k) acc)
          Delta.empty = streamDelta workers.flatten k := by
  induction workers with
  | nil => exact ⟨[], rfl, fun k => (streamDelta_nil k).symm⟩
  | cons w ws ih =>
    obtain ⟨caches, hok, hdelta⟩ := ih
    obtain ⟨oc, hwok, hwdelta⟩ := worker_cache_wordDocids index dt fm indexer w htxn
    refine ⟨oc :: caches, ?_, fun k => ?_⟩
    · simp only [List.map_cons, workers_caches]
      rw [hwok, hok]
    · rw [List.foldr_cons, hdelta k, hwdelta k, List.flatten_cons,
        streamDelta_append]

theorem deltaAt_flatten_caches (cs : List CboCachedSorter) (k : Key) :
    deltaAt ((cs.map CboCachedSorter.into_sorter).flatten).flatten k =
      cs.foldr (fun c acc => MergeDeladdCboRoaringBitmaps (cacheDelta c k) acc)
        Delta.empty := by
  induction cs with
  | nil => rfl
  | cons c rest ih =>
    rw [List.map_cons, List.flatten_cons, List.flatten_append, deltaAt_append, ih]
    rfl

theorem foldr_ocDelta_filterMap (caches : List (Option CboCachedSorter)) (k : Key) :
    (caches.filterMap id).foldr
        (fun c acc => MergeDeladdCboRoaringBitmaps (cacheDelta c k) acc)
        Delta.empty =
      caches.foldr (fun oc acc => MergeDeladdCboRoaringBitmaps (ocDelta oc k) acc)
        Delta.empty := by
  induction caches with
  | nil => rfl
  | cons oc rest ih =>
    cases oc with
    | none =>
      simp only [List.filterMap_cons, id_eq, List.foldr_cons, ih]
      rw [show ocDelta none k = Delta.empty from rfl, mergeDeladd_empty_left]
    | some c =>
      simp only [List.filterMap_cons, id_eq, List.foldr_cons, ih]
      rfl

/-! ## Inversion of a successful run -/

theorem run_extraction_ok_elim {S : SearchableExtractor} {index : Index}
    {fm : GlobalFieldsIdsMap} {indexer : GrenadParameters}
    {conv : CboCachedSorter → Except Err (List Run)}
    {dcs : List (List (Except Err DocumentChange))} {out : Run}
    (h : S.run_extraction index fm indexer conv dcs = Except.ok out) :
    ∃ u ae as caches, index.read_txn = Except.ok u ∧
      S.attributes_to_extract index = Except.ok ae ∧
      S.attributes_to_skip index = Except.ok as ∧
      workers_caches S index ⟨ae, as, MAX_POSITION_PER_ATTRIBUTE⟩ fm indexer dcs =
        Except.ok caches ∧
      build_merger ((caches.filterMap id).map conv) = Except.ok out := by
  unfold SearchableExtractor.run_extraction at h
  cases htxn : index.read_txn with
  | error e => simp [htxn] at h
  | ok u =>
    rw [htxn] at h
    simp only at h
    cases hae : S.attributes_to_extract index with
    | error e => simp [hae] at h
    | ok ae =>
      rw [hae] at h
      simp only at h
      cases has : S.attributes_to_skip index with
      | error e => simp [has] at h
      | ok as =>
        rw [has] at h
        simp only at h
        cases hwc : workers_caches S index ⟨ae, as, MAX_POSITION_PER_ATTRIBUTE⟩
            fm indexer dcs with
        | error e => simp [hwc] at h
        | ok caches =>
          rw [hwc] at h
          simp only at h
          exact ⟨u, ae, as, caches, rfl, rfl, rfl, hwc, h⟩

theorem collect_readers_ok_conv (l : List CboCachedSorter) :
    collect_readers (l.map ok_conv) =
      Except.ok (l.map CboCachedSorter.into_sorter) := by
  induction l with
  | nil => rfl
  | cons c cs ih => simp [collect_readers, ok_conv, ih]

theorem workers_caches_mem {S : SearchableExtractor} {index : Index}
    {dt : DocumentTokenizer} {fm : GlobalFieldsIdsMap}
    {indexer : GrenadParameters}
    {ws : List (List (Except Err DocumentChange))}
    {caches : List (Option CboCachedSorter)}
    (h : workers_caches S index dt fm indexer ws = Except.ok caches) :
    ∀ oc ∈ caches, ∃ items,
      worker_cache S index dt fm indexer items = Except.ok oc := by
  induction ws generalizing caches with
  | nil =>
    simp only [workers_caches, Except.ok.injEq] at h
    subst h
    intro oc hoc
    exact absurd hoc (List.not_mem_nil oc)
  | cons w rest ih =>
    simp only [workers_caches] at h
    cases hw : worker_cache S index dt fm indexer w with
    | error e => rw [hw] at h; exact Except.noConfusion h
    | ok c =>
      rw [hw] at h
      cases hr : workers_caches S index dt fm indexer rest with
      | error e => rw [hr] at h; exact Except.noConfusion h
      | ok cs =>
        rw [hr] at h
        simp only [Except.ok.injEq] at h
        subst h
        intro oc hoc
        rcases List.mem_cons.1 hoc with h' | h'
        · subst h'; exact ⟨w, hw⟩
        · exact ih hr oc h'

/-- C1: for every successful run of `run_extraction` (with the pure
reader-cursor conversion), the merged output sequence produced by the
returned `Merger` is strictly ascending by posting key and contains no
duplicate keys. -/
theorem meili_C1 {S : SearchableExtractor} {index : Index}
    {fm : GlobalFieldsIdsMap} {indexer : GrenadParameters}
    {workers : List (List (Except Err DocumentChange))} {out : Run}
    (h : S.run_extraction index fm indexer ok_conv workers = Except.ok out) :
    out.Pairwise keyLt ∧ (out.map Prod.fst).Nodup := by
  obtain ⟨u, ae, as, caches, _htxn, _hae, _has, hwc, hbm⟩ :=
    run_extraction_ok_elim h
  unfold build_merger at hbm
  rw [collect_readers_ok_conv] at hbm
  simp only [Except.ok.injEq] at hbm
  subst hbm
  have hsorted : (mergeAll
      (((caches.filterMap id).map CboCachedSorter.into_sorter).flatten)).Pairwise
        keyLt := by
    refine mergeAll_sorted ?_
    intro r hr
    rcases List.mem_flatten.1 hr with ⟨runs, hruns, hrmem⟩
    rcases List.mem_map.1 hruns with ⟨c, hc, hceq⟩
    subst hceq
    rcases List.mem_filterMap.1 hc with ⟨oc, hoc, hoceq⟩
    obtain ⟨items, hitems⟩ := workers_caches_mem hwc oc hoc
    have hwf : CacheWF c :=
      ((worker_cache_spec hitems).2 c hoceq).1
    exact cacheWF_into_sorter hwf r hrmem
  refine ⟨hsorted, ?_⟩
  exact List.pairwise_map.mpr (hsorted.imp fun hab => ne_of_lt hab)

/-- C2 (amended): for a change stream with pairwise-distinct document ids,
partitioned in any way across the workers, the resolved document-id set of
every key in the merged output equals the ids whose latest document state
contains the key's token MINUS the ids whose previous state contained it
(an id whose update keeps a token is both removed and added, and the
remove takes precedence in the delta-resolution rule); the right-hand side
is invariant under any reordering of the stream, so the merged result does
not depend on the partition. -/
theorem meili_C2_theorem {index : Index} {fm : GlobalFieldsIdsMap}
    {indexer : GrenadParameters} {workers : List (List DocumentChange)}
    {out : Run}
    (_hdistinct : workers.flatten.Pairwise fun a b => a.docid ≠ b.docid)
    (hrun : WordDocidsExtractors.run_extraction index fm indexer ok_conv
        (workers.map (List.map Except.ok)) = Except.ok out) :
    ∀ k, (deltaAt out k).resolve =
        latestContaining workers.flatten k \
          previouslyContaining workers.flatten k ∧
      ∀ changes', workers.flatten.Perm changes' →
        latestContaining changes' k = latestContaining workers.flatten k ∧
        previouslyContaining changes' k =
          previouslyContaining workers.flatten k := by
  obtain ⟨u, ae, as, caches, htxn, _hae, _has, hwc, hbm⟩ :=
    run_extraction_ok_elim hrun
  cases u
  obtain ⟨caches₂, hok₂, hdelta₂⟩ :=
    workers_caches_wordDocids index ⟨ae, as, MAX_POSITION_PER_ATTRIBUTE⟩ fm
      indexer workers htxn
  have hcc : caches₂ = caches := by
    have := hok₂.symm.trans hwc
    exact Except.ok.inj this
  subst hcc
  unfold build_merger at hbm
  rw [collect_readers_ok_conv] at hbm
  simp only [Except.ok.injEq] at hbm
  subst hbm
  intro k
  constructor
  · rw [mergeAll_deltaAt, deltaAt_flatten_caches, foldr_ocDelta_filterMap,
      hdelta₂ k, streamDelta_eq_containing]
    rfl
  · intro changes' hp
    exact ⟨(containing_perm DocumentChange.new_keys hp k).symm,
      (containing_perm DocumentChange.old_keys hp k).symm⟩

/-! ## Error propagation -/

/-- The error carried by a stream item, if any. -/
def item_error : Except Err DocumentChange → Option Err
  | .error e => some e
  | .ok _ => none

/-- The first error item of the stream, in traversal order (the first
observed error of the run in the sequential model of the fan-out). -/
def first_stream_error
    (workers : List (List (Except Err DocumentChange))) : Option Err :=
  workers.findSome? fun w => w.findSome? item_error

theorem process_items_stop (S : SearchableExtractor) (b : WorkerBundle)
    (pre post : List (Except Err DocumentChange)) (e : Err) :
    process_items S b (pre ++ Except.error e :: post) =
      process_items S b (pre ++ [Except.error e]) := by
  induction pre generalizing b with
  | nil => rfl
  | cons i rest ih =>
    cases i with
    | error e' => rfl
    | ok c =>
      simp only [List.cons_append, process_items]
      cases hx : S.extract_document_change c with
      | error e'' => rfl
      | ok ws => exact ih _

theorem process_items_first_error (b : WorkerBundle)
    (items : List (Except Err DocumentChange)) (e : Err)
    (h : items.findSome? item_error = some e) :
    process_items WordDocidsExtractors b items = Except.error e := by
  induction items generalizing b with
  | nil => simp [List.findSome?] at h
  | cons i rest ih =>
    cases i with
    | error e' =>
      have he : e' = e := by
        simpa [List.findSome?_cons, item_error] using h
      subst he
      rfl
    | ok c =>
      have h' : rest.findSome? item_error = some e := by
        simpa [List.findSome?_cons, item_error] using h
      exact ih _ h'

theorem process_items_no_error (b : WorkerBundle)
    (items : List (Except Err DocumentChange))
    (h : items.findSome? item_error = none) :
    ∃ b', process_items WordDocidsExtractors b items = Except.ok b' := by
  induction items generalizing b with
  | nil => exact ⟨b, rfl⟩
  | cons i rest ih =>
    cases i with
    | error e => simp [List.findSome?_cons, item_error] at h
    | ok c =>
      have h' : rest.findSome? item_error = none := by
        simpa [List.findSome?_cons, item_error] using h
      exact ih _ h'

theorem worker_cache_first_error (index : Index) (dt : DocumentTokenizer)
    (fm : GlobalFieldsIdsMap) (indexer : GrenadParameters)
    (items : List (Except Err DocumentChange)) (e : Err)
    (htxn : index.read_txn = Except.ok ())
    (h : items.findSome? item_error = some e) :
    worker_cache WordDocidsExtractors index dt fm indexer items =
      Except.error e := by
  have hne : items ≠ [] := by
    rintro rfl
    simp [List.findSome?] at h
  unfold worker_cache
  rw [if_neg (by simpa [List.isEmpty_iff] using hne)]
  unfold worker_init
  rw [htxn]
  simp only
  rw [process_items_first_error _ _ e h]

theorem worker_cache_no_error (index : Index) (dt : DocumentTokenizer)
    (fm : GlobalFieldsIdsMap) (indexer : GrenadParameters)
    (items : List (Except Err DocumentChange))
    (htxn : index.read_txn = Except.ok ())
    (h : items.findSome? item_error = none) :
    ∃ oc, worker_cache WordDocidsExtractors index dt fm indexer items =
      Except.ok oc := by
  by_cases hne : items = []
  · subst hne
    exact ⟨none, rfl⟩
  · obtain ⟨b', hb'⟩ := process_items_no_error
      ⟨dt, fm.clone,
        CboCachedSorter.new 1000000
          (create_sorter SortAlgorithm.Stable indexer.chunk_compression_type
            indexer.chunk_compression_level indexer.max_nb_chunks
            indexer.max_memory_by_thread)⟩ items h
    refine ⟨some b'.cache, ?_⟩
    unfold worker_cache
    rw [if_neg (by simpa [List.isEmpty_iff] using hne)]
    unfold worker_init
    rw [htxn]
    simp only
    rw [hb']

theorem workers_caches_first_error (index : Index) (dt : DocumentTokenizer)
    (fm : GlobalFieldsIdsMap) (indexer : GrenadParameters)
    (workers : List (List (Except Err DocumentChange))) (e : Err)
    (htxn : index.read_txn = Except.ok ())
    (h : first_stream_error workers = some e) :
    workers_caches WordDocidsExtractors index dt fm indexer workers =
      Except.error e := by
  induction workers with
  | nil => simp [first_stream_error, List.findSome?] at h
  | cons w ws ih =>
    simp only [workers_caches]
    cases hw : w.findSome? item_error with
    | some e' =>
      have he : e' = e := by
        simp only [first_stream_error, List.findSome?_cons, hw] at h
        exact Option.some.inj h
      subst he
      rw [worker_cache_first_error index dt fm indexer w e' htxn hw]
    | none =>
      have h' : first_stream_error ws = some e := by
        simp only [first_stream_error, List.findSome?_cons, hw] at h
        exact h
      obtain ⟨oc, hoc⟩ := worker_cache_no_error index dt fm indexer w htxn hw
      rw [hoc, ih h']

theorem run_extraction_wordDocids_eq (index : Index)
    (fm : GlobalFieldsIdsMap) (indexer : GrenadParameters)
    (conv : CboCachedSorter → Except Err (List Run))
    (dcs : List (List (Except Err DocumentChange)))
    (htxn : index.read_txn = Except.ok ()) :
    WordDocidsExtractors.run_extraction index fm indexer conv dcs =
      match workers_caches WordDocidsExtractors index
          ⟨none, [], MAX_POSITION_PER_ATTRIBUTE⟩ fm indexer dcs with
      | .error e => .error e
      | .ok caches => build_merger ((caches.filterMap id).map conv) := by
  unfold SearchableExtractor.run_extraction
  rw [htxn]
  rfl

theorem run_extraction_eq_build {S : SearchableExtractor} {index : Index}
    {fm : GlobalFieldsIdsMap} {indexer : GrenadParameters}
    {conv : CboCachedSorter → Except Err (List Run)}
    {dcs : List (List (Except Err DocumentChange))} {ae : Option (List FieldName)}
    {as : List FieldName} {caches : List (Option CboCachedSorter)}
    (htxn : index.read_txn = Except.ok ())
    (hae : S.attributes_to_extract index = Except.ok ae)
    (has : S.attributes_to_skip index = Except.ok as)
    (hwc : workers_caches S index ⟨ae, as, MAX_POSITION_PER_ATTRIBUTE⟩ fm
      indexer dcs = Except.ok caches) :
    S.run_extraction index fm indexer conv dcs =
      build_merger ((caches.filterMap id).map conv) := by
  unfold SearchableExtractor.run_extraction
  rw [htxn]
  simp only
  rw [hae]
  simp only
  rw [has]
  simp only
  rw [hwc]

/-- C3: a stream containing an error item makes the run fail with the
first observed error (sequential observation order of the fan-out model);
no `Merger` is produced, item processing never continues past the first
error of a worker's share, a failing `extract_document_change` likewise
stops the worker with that error, and a failing initialization
(`read_txn`) makes the run fail with the initialization error. -/
theorem meili_C3 (index : Index) (fm : GlobalFieldsIdsMap)
    (indexer : GrenadParameters) (conv : CboCachedSorter → Except Err (List Run))
    (workers : List (List (Except Err DocumentChange))) (e : Err)
    (htxn : index.read_txn = Except.ok ())
    (h : first_stream_error workers = some e) :
    WordDocidsExtractors.run_extraction index fm indexer conv workers =
      Except.error e ∧
    (∀ (S : SearchableExtractor) (b : WorkerBundle)
      (pre post : List (Except Err DocumentChange)) (e' : Err),
      process_items S b (pre ++ Except.error e' :: post) =
        process_items S b (pre ++ [Except.error e'])) ∧
    (∀ (S : SearchableExtractor) (b : WorkerBundle) (c : DocumentChange)
      (rest : List (Except Err DocumentChange)) (e' : Err),
      S.extract_document_change c = Except.error e' →
      process_items S b (Except.ok c :: rest) = Except.error e') ∧
    ∀ (S : SearchableExtractor) (index' : Index) (fm' : GlobalFieldsIdsMap)
      (indexer' : GrenadParameters)
      (conv' : CboCachedSorter → Except Err (List Run))
      (dcs' : List (List (Except Err DocumentChange))) (e' : Err),
      index'.read_txn = Except.error e' →
      S.run_extraction index' fm' indexer' conv' dcs' = Except.error e' := by
  refine ⟨?_, fun S b pre post e' => process_items_stop S b pre post e',
    fun S b c rest e' hx => by simp [process_items, hx],
    fun S index' fm' indexer' conv' dcs' e' hr => by
      unfold SearchableExtractor.run_extraction
      rw [hr]⟩
  rw [run_extraction_wordDocids_eq index fm indexer conv workers htxn,
    workers_caches_first_error index _ fm indexer workers e htxn h]

theorem meili_C3_witness :
    WordDocidsExtractors.run_extraction ⟨Except.ok ()⟩ 0 ⟨0, none, none, none⟩
        ok_conv [[Except.error 7]] = Except.error 7 :=
  (meili_C3 ⟨Except.ok ()⟩ 0 ⟨0, none, none, none⟩ ok_conv [[Except.error 7]] 7
    rfl rfl).1

/-- C4: the delta-combining function `MergeDeladdCboRoaringBitmaps`
resolves to union-of-adds-minus-removes: an add and a remove for the same
document id in different deltas cancel, and within one delta a remove
takes precedence over an add for the same id. -/
theorem meili_C4 :
    (∀ a b : Delta, (MergeDeladdCboRoaringBitmaps a b).resolve =
      (a.adds ∪ b.adds) \ (a.dels ∪ b.dels)) ∧
    (∀ a b : Delta, ∀ id : DocId, id ∈ a.adds → id ∈ b.dels →
      id ∉ (MergeDeladdCboRoaringBitmaps a b).resolve) ∧
    (∀ d : Delta, ∀ id : DocId, id ∈ d.dels → id ∉ d.resolve) := by
  refine ⟨fun a b => rfl, ?_, ?_⟩
  · intro a b id _ha hb
    simp [MergeDeladdCboRoaringBitmaps, Delta.resolve, Finset.mem_sdiff, hb]
  · intro d id hd
    simp [Delta.resolve, Finset.mem_sdiff, hd]

theorem meili_C4_witness :
    (3 : DocId) ∉ (MergeDeladdCboRoaringBitmaps ⟨∅, {3}⟩ ⟨{3}, ∅⟩).resolve ∧
    (3 : DocId) ∉ Delta.resolve ⟨{3}, {3}⟩ :=
  ⟨meili_C4.2.1 ⟨∅, {3}⟩ ⟨{3}, ∅⟩ 3 (by decide) (by decide),
    meili_C4.2.2 ⟨{3}, {3}⟩ 3 (by decide)⟩

/-- C5: the delta-combine rule is idempotent, commutative and associative,
so any order of application of identical deltas resolves to the same final
membership. -/
theorem meili_C5 :
    (∀ d : Delta, MergeDeladdCboRoaringBitmaps d d = d) ∧
    (∀ a b : Delta,
      MergeDeladdCboRoaringBitmaps a b = MergeDeladdCboRoaringBitmaps b a) ∧
    (∀ a b c : Delta,
      MergeDeladdCboRoaringBitmaps (MergeDeladdCboRoaringBitmaps a b) c =
        MergeDeladdCboRoaringBitmaps a (MergeDeladdCboRoaringBitmaps b c)) ∧
    (∀ d : Delta, (MergeDeladdCboRoaringBitmaps d d).resolve = d.resolve) := by
  have hidem : ∀ d : Delta, MergeDeladdCboRoaringBitmaps d d = d := by
    intro d
    ext x <;> simp [MergeDeladdCboRoaringBitmaps]
  exact ⟨hidem, mergeDeladd_comm, mergeDeladd_assoc, fun d => by rw [hidem d]⟩

theorem length_filterMap_of_zip {caches : List (Option CboCachedSorter)}
    {ws : List (List (Except Err DocumentChange))}
    (hlen : caches.length = ws.length)
    (h : ∀ p ∈ caches.zip ws, p.1.isSome ↔ p.2 ≠ []) :
    (caches.filterMap id).length = (ws.filter fun w => !w.isEmpty).length := by
  induction caches generalizing ws with
  | nil =>
    cases ws with
    | nil => rfl
    | cons w ws' => simp at hlen
  | cons oc rest ih =>
    cases ws with
    | nil => simp at hlen
    | cons w ws' =>
      have hhead := h (oc, w) (by simp [List.zip_cons_cons])
      have htail : ∀ p ∈ rest.zip ws', p.1.isSome ↔ p.2 ≠ [] := fun p hp =>
        h p (by simp [List.zip_cons_cons, hp])
      have hlen' : rest.length = ws'.length := by simpa using hlen
      cases oc with
      | some c =>
        have hw : w ≠ [] := by simpa using hhead
        have hw' : w.isEmpty = false := by
          simpa [List.isEmpty_iff] using hw
        simp [List.filterMap_cons, List.filter_cons, hw', ih hlen' htail]
      | none =>
        have hw : w = [] := by
          by_contra hc
          simp [hc] at hhead
        subst hw
        simp [List.filterMap_cons, List.filter_cons, ih hlen' htail]

/-- C6: on a successful run every worker's bundle was initialized at most
once (nothing is initialized for a worker that processes no item, and a
worker that does process items runs `worker_init` exactly once and reuses
the resulting bundle for all of its items), and the append-only collection
holds exactly one cache per worker that processed at least one item. -/
theorem meili_C6 (S : SearchableExtractor) (index : Index)
    (fm : GlobalFieldsIdsMap) (indexer : GrenadParameters)
    (conv : CboCachedSorter → Except Err (List Run))
    (workers : List (List (Except Err DocumentChange))) (out : Run)
    (h : S.run_extraction index fm indexer conv workers = Except.ok out) :
    ∃ dt caches,
      workers_caches S index dt fm indexer workers = Except.ok caches ∧
      caches.length = workers.length ∧
      (∀ p ∈ caches.zip workers, p.1.isSome ↔ p.2 ≠ []) ∧
      (caches.filterMap id).length =
        (workers.filter fun w => !w.isEmpty).length ∧
      ∀ w, w ≠ [] →
        worker_cache S index dt fm indexer w =
          match worker_init index dt fm indexer with
          | .error e => .error e
          | .ok b =>
            match process_items S b w with
            | .error e => .error e
            | .ok b' => Except.ok (some b'.cache) := by
  obtain ⟨u, ae, as, caches, _htxn, _hae, _has, hwc, _hbm⟩ :=
    run_extraction_ok_elim h
  obtain ⟨hlen, hzip⟩ := workers_caches_spec hwc
  have hpoint : ∀ p ∈ caches.zip workers, p.1.isSome ↔ p.2 ≠ [] := fun p hp =>
    (worker_cache_spec (hzip p hp)).1
  refine ⟨⟨ae, as, MAX_POSITION_PER_ATTRIBUTE⟩, caches, hwc, hlen, hpoint,
    length_filterMap_of_zip hlen hpoint, ?_⟩
  intro w hw
  unfold worker_cache
  rw [if_neg (by simpa [List.isEmpty_iff] using hw)]

theorem run_single_empty_insertion (index : Index) (fm : GlobalFieldsIdsMap)
    (indexer : GrenadParameters) (docid : DocId)
    (htxn : index.read_txn = Except.ok ()) :
    WordDocidsExtractors.run_extraction index fm indexer ok_conv
      [[Except.ok (DocumentChange.insertion docid [])]] = Except.ok [] := by
  rw [run_extraction_wordDocids_eq index fm indexer ok_conv _ htxn]
  simp [workers_caches, worker_cache, worker_init, htxn, process_items,
    WordDocidsExtractors, word_docids_writes, DocumentChange.old_keys,
    DocumentChange.new_keys, DocumentChange.docid,
    CboCachedSorter.apply_writes, CboCachedSorter.new, build_merger,
    collect_readers, ok_conv, CboCachedSorter.into_sorter, mergeAll,
    mergeRuns]

/-- C7: tokenization honors the maximum-positions-per-attribute cutoff:
positions beyond the cutoff are dropped without raising an error, and a
document whose only tokens lie beyond the cutoff contributes zero postings
from the truncated positions (its run produces an empty merged output). -/
theorem meili_C7 (t : DocumentTokenizer) (tokens : List (Nat × Key)) :
    t.tokenize_field tokens =
      Except.ok (tokens.filter fun pt => pt.1 < t.max_positions_per_attributes) ∧
    ((∀ pt ∈ tokens, t.max_positions_per_attributes ≤ pt.1) →
      t.tokenize_field tokens = Except.ok [] ∧
      tokens_keys (tokens.filter fun pt =>
        pt.1 < t.max_positions_per_attributes) = [] ∧
      ∀ (index : Index) (fm : GlobalFieldsIdsMap) (indexer : GrenadParameters)
        (docid : DocId), index.read_txn = Except.ok () →
        WordDocidsExtractors.run_extraction index fm indexer ok_conv
          [[Except.ok (DocumentChange.insertion docid
            (tokens_keys (tokens.filter fun pt =>
              pt.1 < t.max_positions_per_attributes)))]] = Except.ok []) := by
  have hfilter : (∀ pt ∈ tokens, t.max_positions_per_attributes ≤ pt.1) →
      (tokens.filter fun pt => pt.1 < t.max_positions_per_attributes) = [] := by
    intro h
    rw [List.filter_eq_nil_iff]
    intro a ha
    simpa using h a ha
  refine ⟨rfl, fun h => ?_⟩
  have hf := hfilter h
  refine ⟨by rw [DocumentTokenizer.tokenize_field, hf], by rw [hf]; rfl, ?_⟩
  intro index fm indexer docid htxn
  rw [hf]
  exact run_single_empty_insertion index fm indexer docid htxn

/-- C8: every worker's cache is created with the literal 1,000,000-entry
in-memory budget and the sorter configuration taken from the indexer
parameters (compression type and level, maximum chunk count, maximum
memory per thread), and keeps that configuration for the whole run. -/
theorem meili_C8 (S : SearchableExtractor) (index : Index)
    (dt : DocumentTokenizer) (fm : GlobalFieldsIdsMap)
    (indexer : GrenadParameters) (items : List (Except Err DocumentChange))
    (c : CboCachedSorter)
    (h : worker_cache S index dt fm indexer items = Except.ok (some c)) :
    c.budget = 1000000 ∧
      c.sorter = create_sorter SortAlgorithm.Stable
        indexer.chunk_compression_type indexer.chunk_compression_level
        indexer.max_nb_chunks indexer.max_memory_by_thread :=
  ((worker_cache_spec h).2 c rfl).2

theorem collect_readers_error_mem {L : List (Except Err (List Run))} {e : Err}
    (h : Except.error e ∈ L) : ∃ e', collect_readers L = Except.error e' := by
  induction L with
  | nil => exact absurd h (List.not_mem_nil _)
  | cons r rest ih =>
    cases r with
    | error e' => exact ⟨e', rfl⟩
    | ok v =>
      have h' : Except.error e ∈ rest := by
        rcases List.mem_cons.1 h with h'' | h''
        · exact absurd h'' (by simp)
        · exact h''
      obtain ⟨e', he'⟩ := ih h'
      exact ⟨e', by simp [collect_readers, he']⟩

/-- C9: a failing conversion of any registered cache into its sorted
reader cursors during the merger-building phase is fatal: the whole run
returns `Err` and no `Merger` is produced. -/
theorem meili_C9 (S : SearchableExtractor) (index : Index)
    (fm : GlobalFieldsIdsMap) (indexer : GrenadParameters)
    (conv : CboCachedSorter → Except Err (List Run))
    (workers : List (List (Except Err DocumentChange)))
    (ae : Option (List FieldName)) (as : List FieldName)
    (caches : List (Option CboCachedSorter)) (c : CboCachedSorter) (e : Err)
    (htxn : index.read_txn = Except.ok ())
    (hae : S.attributes_to_extract index = Except.ok ae)
    (has : S.attributes_to_skip index = Except.ok as)
    (hwc : workers_caches S index ⟨ae, as, MAX_POSITION_PER_ATTRIBUTE⟩ fm
      indexer workers = Except.ok caches)
    (hc : c ∈ caches.filterMap id) (hconv : conv c = Except.error e) :
    (∃ e₁, S.run_extraction index fm indexer conv workers = Except.error e₁) ∧
      ∃ e₂, build_merger ((caches.filterMap id).map conv) = Except.error e₂ := by
  have hmem : Except.error e ∈ (caches.filterMap id).map conv := by
    rw [← hconv]
    exact List.mem_map_of_mem conv hc
  obtain ⟨e', he'⟩ := collect_readers_error_mem hmem
  have hb : build_merger ((caches.filterMap id).map conv) = Except.error e' := by
    unfold build_merger
    rw [he']
  refine ⟨⟨e', ?_⟩, ⟨e', hb⟩⟩
  rw [run_extraction_eq_build htxn hae has hwc]
  exact hb

/-- C10: the blanket `impl<T: SearchableExtractor> DocidsExtractor for T`
is a pure delegation: its `run_extraction` is extensionally equal to
`SearchableExtractor::run_extraction` on all inputs. -/
theorem meili_C10 : ∀ (S : SearchableExtractor) (index : Index)
    (fm : GlobalFieldsIdsMap) (indexer : GrenadParameters)
    (conv : CboCachedSorter → Except Err (List Run))
    (dcs : List (List (Except Err DocumentChange))),
    DocidsExtractor.run_extraction S index fm indexer conv dcs =
      SearchableExtractor.run_extraction S index fm indexer conv dcs :=
  fun _ _ _ _ _ _ => rfl

/-- C2 counterexample: a single update that keeps token `0` (old and new
state both contain it).  The run succeeds, the latest state of document 1
contains the token, yet the resolved document-id set of key `0` is empty —
the remove written for the old version cancels the add written for the
new version under the union-of-adds-minus-removes rule, refuting the
claimed equality with the latest-state membership set. -/
theorem meili_C2_counterexample :
    WordDocidsExtractors.run_extraction ⟨Except.ok ()⟩ 0 ⟨0, none, none, none⟩
        ok_conv [[Except.ok (DocumentChange.update 1 [0] [0])]] =
      Except.ok [(0, ⟨{1}, {1}⟩)] ∧
    (deltaAt [((0 : Key), (⟨{1}, {1}⟩ : Delta))] 0).resolve = ∅ ∧
    latestContaining [DocumentChange.update 1 [0] [0]] 0 = {1} ∧
    (∅ : Finset DocId) ≠ {1} := by
  refine ⟨?_, by decide, by decide, by decide⟩
  simp [SearchableExtractor.run_extraction, workers_caches, worker_cache,
    worker_init, process_items, WordDocidsExtractors, word_docids_writes,
    DocumentChange.old_keys, DocumentChange.new_keys, DocumentChange.docid,
    CboCachedSorter.apply_writes, CboCachedSorter.apply_write,
    CboCachedSorter.insert_add, CboCachedSorter.insert_del,
    CboCachedSorter.spill_if_full, CboCachedSorter.new, insertWith,
    Delta.add_doc, Delta.del_doc, Delta.empty, build_merger, collect_readers,
    ok_conv, CboCachedSorter.into_sorter, mergeAll, mergeRuns]

theorem meili_C1_witness :
    ([((2 : Key), (⟨∅, {1}⟩ : Delta)), (5, ⟨∅, {1}⟩)].Pairwise keyLt) ∧
      (([((2 : Key), (⟨∅, {1}⟩ : Delta)), (5, ⟨∅, {1}⟩)].map Prod.fst).Nodup) :=
  @meili_C1 WordDocidsExtractors ⟨Except.ok ()⟩ 0 ⟨0, none, none, none⟩
    [[Except.ok (DocumentChange.insertion 1 [2, 5])]]
    [(2, ⟨∅, {1}⟩), (5, ⟨∅, {1}⟩)]
    (by simp [SearchableExtractor.run_extraction, workers_caches, worker_cache,
      worker_init, process_items, WordDocidsExtractors, word_docids_writes,
      DocumentChange.old_keys, DocumentChange.new_keys, DocumentChange.docid,
      CboCachedSorter.apply_writes, CboCachedSorter.apply_write,
      CboCachedSorter.insert_add, CboCachedSorter.insert_del,
      CboCachedSorter.spill_if_full, CboCachedSorter.new, insertWith,
      Delta.add_doc, Delta.del_doc, Delta.empty, build_merger, collect_readers,
      ok_conv, CboCachedSorter.into_sorter, mergeAll, mergeRuns])

theorem meili_C2_witness :
    (deltaAt [((2 : Key), (⟨∅, {1}⟩ : Delta)), (5, ⟨∅, {1}⟩)] 2).resolve =
      latestContaining ([[DocumentChange.insertion 1 [2, 5]]].flatten) 2 \
        previouslyContaining ([[DocumentChange.insertion 1 [2, 5]]].flatten) 2 :=
  ((@meili_C2_theorem ⟨Except.ok ()⟩ 0 ⟨0, none, none, none⟩
    [[DocumentChange.insertion 1 [2, 5]]] [(2, ⟨∅, {1}⟩), (5, ⟨∅, {1}⟩)]
    (by decide)
    (by simp [SearchableExtractor.run_extraction, workers_caches, worker_cache,
      worker_init, process_items, WordDocidsExtractors, word_docids_writes,
      DocumentChange.old_keys, DocumentChange.new_keys, DocumentChange.docid,
      CboCachedSorter.apply_writes, CboCachedSorter.apply_write,
      CboCachedSorter.insert_add, CboCachedSorter.insert_del,
      CboCachedSorter.spill_if_full, CboCachedSorter.new, insertWith,
      Delta.add_doc, Delta.del_doc, Delta.empty, build_merger, collect_readers,
      ok_conv, CboCachedSorter.into_sorter, mergeAll, mergeRuns])) 2).1

theorem meili_C6_witness :
    ∃ dt caches,
      workers_caches WordDocidsExtractors ⟨Except.ok ()⟩ dt 0
          ⟨0, none, none, none⟩
          ([[Except.ok (DocumentChange.insertion 1 [2, 5])]] :
            List (List (Except Err DocumentChange))) =
        Except.ok caches ∧
      caches.length =
        ([[Except.ok (DocumentChange.insertion 1 [2, 5])]] :
          List (List (Except Err DocumentChange))).length ∧
      (∀ p ∈ caches.zip
          ([[Except.ok (DocumentChange.insertion 1 [2, 5])]] :
            List (List (Except Err DocumentChange))),
        p.1.isSome ↔ p.2 ≠ []) ∧
      (caches.filterMap id).length =
        (([[Except.ok (DocumentChange.insertion 1 [2, 5])]] :
          List (List (Except Err DocumentChange))).filter
          fun w => !w.isEmpty).length ∧
      ∀ w, w ≠ [] →
        worker_cache WordDocidsExtractors ⟨Except.ok ()⟩ dt 0
            ⟨0, none, none, none⟩ w =
          match worker_init ⟨Except.ok ()⟩ dt 0 ⟨0, none, none, none⟩ with
          | .error e => .error e
          | .ok b =>
            match process_items WordDocidsExtractors b w with
            | .error e => .error e
            | .ok b' => Except.ok (some b'.cache) :=
  meili_C6 WordDocidsExtractors ⟨Except.ok ()⟩ 0 ⟨0, none, none, none⟩ ok_conv
    [[Except.ok (DocumentChange.insertion 1 [2, 5])]]
    [(2, ⟨∅, {1}⟩), (5, ⟨∅, {1}⟩)]
    (by simp [SearchableExtractor.run_extraction, workers_caches, worker_cache,
      worker_init, process_items, WordDocidsExtractors, word_docids_writes,
      DocumentChange.old_keys, DocumentChange.new_keys, DocumentChange.docid,
      CboCachedSorter.apply_writes, CboCachedSorter.apply_write,
      CboCachedSorter.insert_add, CboCachedSorter.insert_del,
      CboCachedSorter.spill_if_full, CboCachedSorter.new, insertWith,
      Delta.add_doc, Delta.del_doc, Delta.empty, build_merger, collect_readers,
      ok_conv, CboCachedSorter.into_sorter, mergeAll, mergeRuns])

theorem meili_C7_witness :
    (⟨none, [], 3⟩ : DocumentTokenizer).tokenize_field [(5, 2)] =
      Except.ok [] :=
  ((meili_C7 ⟨none, [], 3⟩ [(5, 2)]).2 (by decide)).1

theorem meili_C8_witness :
    (⟨1000000, ⟨SortAlgorithm.Stable, 0, none, none, none⟩, [],
        [(2, ⟨∅, {1}⟩)]⟩ : CboCachedSorter).budget = 1000000 ∧
      (⟨1000000, ⟨SortAlgorithm.Stable, 0, none, none, none⟩, [],
        [(2, ⟨∅, {1}⟩)]⟩ : CboCachedSorter).sorter =
        create_sorter SortAlgorithm.Stable 0 none none none :=
  meili_C8 WordDocidsExtractors ⟨Except.ok ()⟩
    ⟨none, [], MAX_POSITION_PER_ATTRIBUTE⟩ 0 ⟨0, none, none, none⟩
    [Except.ok (DocumentChange.insertion 1 [2])]
    ⟨1000000, ⟨SortAlgorithm.Stable, 0, none, none, none⟩, [], [(2, ⟨∅, {1}⟩)]⟩
    rfl

theorem meili_C9_witness :
    (∃ e₁, WordDocidsExtractors.run_extraction ⟨Except.ok ()⟩ 0
        ⟨0, none, none, none⟩ (fun _ => Except.error 9)
        [[Except.ok (DocumentChange.insertion 1 [2])]] = Except.error e₁) ∧
      ∃ e₂, build_merger
        (([some (⟨1000000, ⟨SortAlgorithm.Stable, 0, none, none, none⟩, [],
          [(2, ⟨∅, {1}⟩)]⟩ : CboCachedSorter)].filterMap id).map
            fun _ => Except.error 9) = Except.error e₂ :=
  meili_C9 WordDocidsExtractors ⟨Except.ok ()⟩ 0 ⟨0, none, none, none⟩
    (fun _ => Except.error 9) [[Except.ok (DocumentChange.insertion 1 [2])]]
    none []
    [some ⟨1000000, ⟨SortAlgorithm.Stable, 0, none, none, none⟩, [],
      [(2, ⟨∅, {1}⟩)]⟩]
    ⟨1000000, ⟨SortAlgorithm.Stable, 0, none, none, none⟩, [], [(2, ⟨∅, {1}⟩)]⟩
    9 rfl rfl rfl rfl (by simp) rfl
